import Mathlib

/-!
Shallow embedding of `scripts/generate_keenetic_dns_routes.py`.

Strings are modelled as lists of characters (`Str`).  Python's `str.strip`,
`str.lower`, `str.split`, `str.startswith` and f-string concatenation are
modelled on ASCII text, which is the alphabet of every rule prefix and of
all inputs the claims mention.  File-system effects are modelled by
returning the `(path, content)` pairs the program would write.
-/

namespace SrConfig

/-- A Python string, modelled as a list of characters. -/
abbrev Str := List Char

/-- The whitespace characters stripped by Python's `str.strip()` on ASCII
text: space, tab, newline, carriage return, vertical tab, form feed. -/
def pyWs (c : Char) : Bool :=
  c == ' ' || c == '\t' || c == '\n' || c == '\r' || c == '\x0b' || c == '\x0c'

/-- `s.strip()`: remove leading and trailing whitespace. -/
def strip (s : Str) : Str :=
  (s.dropWhile pyWs).rdropWhile pyWs

/-- ASCII lower-casing of one character, as Python's `str.lower` acts on
ASCII: uppercase letters (code points 65–90) are shifted by 32. -/
def lowerChar (c : Char) : Char :=
  if 65 ≤ c.toNat ∧ c.toNat ≤ 90 then Char.ofNat (c.toNat + 32) else c

/-- `s.lower()` on ASCII text. -/
def lower (s : Str) : Str := s.map lowerChar

/-- `line.split(",", 1)`: `some (before, after)` splitting at the FIRST
comma, or `none` when the string has no comma (Python guards the split
with `"," in line`). -/
def splitFirst : Str → Option (Str × Str)
  | [] => none
  | c :: rest =>
    if c = ',' then some ([], rest)
    else
      match splitFirst rest with
      | none => none
      | some (a, b) => some (c :: a, b)

/-- `s.split(",")`: split at every comma, keeping empty pieces. -/
def splitAll : Str → List Str
  | [] => [[]]
  | c :: rest =>
    if c = ',' then [] :: splitAll rest
    else
      match splitAll rest with
      | [] => [[c]]
      | h :: t => (c :: h) :: t

/-- The classification kinds returned by `parse_line`. -/
inductive Kind where
  | domain
  | keyword
  | unknown
  | raw
deriving DecidableEq

/-- `SUPPORTED_PREFIXES = {"DOMAIN", "DOMAIN-SUFFIX", "DOMAIN-KEYWORD"}`. -/
def SUPPORTED_PREFIXES : List Str :=
  ["DOMAIN".data, "DOMAIN-SUFFIX".data, "DOMAIN-KEYWORD".data]

/-- `parse_line(raw_line)`: strip the line; drop blanks and `#`/`//`
comments; split on the first comma when one exists and classify by the
trimmed part before it; a comma-free line is a bare domain. -/
def parse_line (raw_line : Str) : Option (Kind × Str) :=
  let line := strip raw_line
  if line = [] ∨ "#".data.isPrefixOf line ∨ "//".data.isPrefixOf line then
    none
  else
    match splitFirst line with
    | some (p, v) =>
      let pfx := strip p
      let value := strip v
      if pfx = "DOMAIN".data ∨ pfx = "DOMAIN-SUFFIX".data then
        some (Kind.domain, value)
      else if pfx = "DOMAIN-KEYWORD".data then
        some (Kind.keyword, value)
      else if pfx ∈ SUPPORTED_PREFIXES then
        some (Kind.unknown, line)
      else
        some (Kind.raw, line)
    | none => some (Kind.domain, line)

/-- The part of a string before its first comma (spec: "splits on the
FIRST comma only"). -/
def beforeComma (s : Str) : Str := s.takeWhile fun c => !(c == ',')

/-- The part of a string after its first comma. -/
def afterComma (s : Str) : Str := (s.dropWhile fun c => !(c == ',')).tail

/-- The classifier exactly as the spec sentences of C1 state it: `none`
for blank/comment lines; for a line with a comma, split at the first
comma and trim both parts, returning `domain` for a `DOMAIN` or
`DOMAIN-SUFFIX` marker with the value portion, `keyword` for
`DOMAIN-KEYWORD` with the value portion, and `raw` with the whole trimmed
line otherwise; a comma-free line is a `domain` whose payload is the
whole trimmed line. -/
def parse_line_claim (raw_line : Str) : Option (Kind × Str) :=
  let line := strip raw_line
  if line = [] ∨ "#".data.isPrefixOf line ∨ "//".data.isPrefixOf line then
    none
  else if ',' ∈ line then
    let pfx := strip (beforeComma line)
    let value := strip (afterComma line)
    if pfx = "DOMAIN".data ∨ pfx = "DOMAIN-SUFFIX".data then
      some (Kind.domain, value)
    else if pfx = "DOMAIN-KEYWORD".data then
      some (Kind.keyword, value)
    else
      some (Kind.raw, line)
  else
    some (Kind.domain, line)

/-- `normalize(value)`: strip, lower-case, then remove one trailing dot. -/
def normalize (value : Str) : Str :=
  let v := lower (strip value)
  if v.getLast? = some '.' then v.dropLast else v

/-- `expand_keyword(keyword, tlds)`. -/
def expand_keyword (keyword : Str) (tlds : List Str) : List Str :=
  let normalized := normalize keyword
  if normalized = [] then []
  else if '.' ∈ normalized then [normalized]
  else tlds.map fun tld => normalized ++ '.' :: tld

/-- The file content `write_list` produces for a given item sequence:
newline-joined, plus one trailing newline when the join is non-empty. -/
def writeContent (items : List Str) : Str :=
  let content := List.intercalate "\n".data items
  if content = [] then content else content ++ "\n".data

/-- `write_list(path, items)`: `none` models "no file written" (the early
return on a `None` path); otherwise the `(path, content)` pair written. -/
def write_list (path : Option Str) (items : List Str) : Option (Str × Str) :=
  match path with
  | none => none
  | some p => some (p, writeContent items)

/-- The accumulator collections of `main`: the two output sequences and
their membership sets (sets are modelled as lists used only via `∈`). -/
structure AggState where
  domains : List Str
  seen : List Str
  unsupported : List Str
  unsupported_seen : List Str
deriving DecidableEq

def initState : AggState := ⟨[], [], [], []⟩

/-- The dedup-and-append step shared by the `domain` branch and the
keyword-expansion loop: `if d and d not in seen: seen.add; domains.append`. -/
def addDomain (st : AggState) (d : Str) : AggState :=
  if d ≠ [] ∧ d ∉ st.seen then
    { st with seen := d :: st.seen, domains := st.domains ++ [d] }
  else st

/-- The `unknown`/`raw` branch: normalize the payload and dedup-append it
to the unsupported sequence. -/
def addUnsupported (st : AggState) (v : Str) : AggState :=
  let normalized := normalize v
  if normalized ≠ [] ∧ normalized ∉ st.unsupported_seen then
    { st with unsupported_seen := normalized :: st.unsupported_seen,
              unsupported := st.unsupported ++ [normalized] }
  else st

/-- One iteration of the per-line loop in `main`. -/
def processLine (tlds : List Str) (st : AggState) (raw_line : Str) : AggState :=
  match parse_line raw_line with
  | none => st
  | some (Kind.domain, value) => addDomain st (normalize value)
  | some (Kind.keyword, value) => (expand_keyword value tlds).foldl addDomain st
  | some (Kind.unknown, value) => addUnsupported st value
  | some (Kind.raw, value) => addUnsupported st value

/-- The inner loop of `main`: all lines of one file, in order. -/
def runFile (tlds : List Str) (st : AggState) (lines : List Str) : AggState :=
  lines.foldl (processLine tlds) st

/-- The outer loop of `main`: every file, in sorted-filename order. -/
def aggregate (tlds : List Str) (files : List (List Str)) : AggState :=
  files.foldl (runFile tlds) initState

/-- `[t.strip().lower() for t in s.split(",") if t.strip()]`. -/
def parseTlds (s : Str) : List Str :=
  (splitAll s).filterMap fun t => if strip t = [] then none else some (lower (strip t))

/-- The aggregator invariant behind C3: the emitted domain sequence has
no duplicates, no empty string, and every emitted domain is in the seen
set. -/
def validAgg (st : AggState) : Prop :=
  st.domains.Nodup ∧ [] ∉ st.domains ∧ ∀ d ∈ st.domains, d ∈ st.seen

/-- The run configuration `main` resolves from the command line, plus the
two facts about the file system it branches on.  `list_files` holds the
line sequences of the `*.list` files in sorted filename order;
`unsupported_file = ""` models suppressing the unsupported output. -/
structure Config where
  input_dir_exists : Bool
  list_files : List (List Str)
  output_file : Str
  unsupported_file : Str
  strict : Bool
  keyword_tlds : Str

/-- The aggregation `main` performs once the input checks pass. -/
def mainAgg (cfg : Config) : AggState :=
  aggregate (parseTlds cfg.keyword_tlds) cfg.list_files

/-- `main()`: the exit code and the list of `(path, content)` writes, in
write order.  Exit 2 paths write nothing; otherwise the domains file is
written, then the unsupported file unless its path is empty, and only
then is the strict check applied. -/
def main (cfg : Config) : Nat × List (Str × Str) :=
  if cfg.input_dir_exists = false then (2, [])
  else if cfg.list_files = [] then (2, [])
  else
    let st := mainAgg cfg
    let writes :=
      (write_list (some cfg.output_file) st.domains).toList ++
      (write_list (if cfg.unsupported_file = [] then none
                   else some cfg.unsupported_file) st.unsupported).toList
    if st.unsupported ≠ [] ∧ cfg.strict = true then (1, writes) else (0, writes)

/-! ## Helper lemmas -/

lemma lower_eq_map (s : Str) : lower s = s.map lowerChar := rfl

lemma strip_eq_drops (s : Str) :
    strip s = (s.dropWhile pyWs).rdropWhile pyWs := rfl

lemma normalize_eq (s : Str) :
    normalize s = if (lower (strip s)).getLast? = some '.'
      then (lower (strip s)).dropLast else lower (strip s) := rfl

lemma expand_keyword_eq (K : Str) (tlds : List Str) :
    expand_keyword K tlds =
      if normalize K = [] then []
      else if '.' ∈ normalize K then [normalize K]
      else tlds.map fun tld => normalize K ++ '.' :: tld := rfl

lemma writeContent_eq (items : List Str) :
    writeContent items =
      if List.intercalate "\n".data items = [] then
        List.intercalate "\n".data items
      else List.intercalate "\n".data items ++ "\n".data := rfl

lemma parse_line_def (raw_line : Str) :
    parse_line raw_line =
      if strip raw_line = [] ∨ "#".data.isPrefixOf (strip raw_line) ∨
          "//".data.isPrefixOf (strip raw_line) then none
      else
        match splitFirst (strip raw_line) with
        | some (p, v) =>
          if strip p = "DOMAIN".data ∨ strip p = "DOMAIN-SUFFIX".data then
            some (Kind.domain, strip v)
          else if strip p = "DOMAIN-KEYWORD".data then
            some (Kind.keyword, strip v)
          else if strip p ∈ SUPPORTED_PREFIXES then
            some (Kind.unknown, strip raw_line)
          else some (Kind.raw, strip raw_line)
        | none => some (Kind.domain, strip raw_line) := rfl

lemma parse_line_claim_def (raw_line : Str) :
    parse_line_claim raw_line =
      if strip raw_line = [] ∨ "#".data.isPrefixOf (strip raw_line) ∨
          "//".data.isPrefixOf (strip raw_line) then none
      else if ',' ∈ strip raw_line then
        if strip (beforeComma (strip raw_line)) = "DOMAIN".data ∨
            strip (beforeComma (strip raw_line)) = "DOMAIN-SUFFIX".data then
          some (Kind.domain, strip (afterComma (strip raw_line)))
        else if strip (beforeComma (strip raw_line)) = "DOMAIN-KEYWORD".data then
          some (Kind.keyword, strip (afterComma (strip raw_line)))
        else some (Kind.raw, strip raw_line)
      else some (Kind.domain, strip raw_line) := rfl

lemma main_eq (cfg : Config) :
    main cfg =
      if cfg.input_dir_exists = false then (2, [])
      else if cfg.list_files = [] then (2, [])
      else if (mainAgg cfg).unsupported ≠ [] ∧ cfg.strict = true then
        (1, (write_list (some cfg.output_file) (mainAgg cfg).domains).toList ++
            (write_list (if cfg.unsupported_file = [] then none
              else some cfg.unsupported_file) (mainAgg cfg).unsupported).toList)
      else
        (0, (write_list (some cfg.output_file) (mainAgg cfg).domains).toList ++
            (write_list (if cfg.unsupported_file = [] then none
              else some cfg.unsupported_file) (mainAgg cfg).unsupported).toList) := rfl

lemma splitFirst_eq_none : ∀ {s : Str}, ',' ∉ s → splitFirst s = none
  | [], _ => rfl
  | c :: rest, h => by
    have hc : ¬ c = ',' := fun e => h (List.mem_cons.mpr (Or.inl e.symm))
    have hr : ',' ∉ rest := fun m => h (List.mem_cons_of_mem _ m)
    simp only [splitFirst, if_neg hc, splitFirst_eq_none hr]

lemma splitFirst_eq_some : ∀ {s : Str}, ',' ∈ s →
    splitFirst s = some (beforeComma s, afterComma s)
  | c :: rest, h => by
    by_cases hc : c = ','
    · subst hc
      simp [splitFirst, beforeComma, afterComma, List.takeWhile_cons,
        List.dropWhile_cons]
    · have hr : ',' ∈ rest :=
        (List.mem_cons.mp h).resolve_left fun e => hc e.symm
      simp [splitFirst, hc, splitFirst_eq_some hr, beforeComma, afterComma,
        List.takeWhile_cons, List.dropWhile_cons]

lemma strip_nil : strip ([] : Str) = [] := rfl

lemma strip_eq_nil_of_ws {t : Str} (h : ∀ c ∈ t, pyWs c = true) :
    strip t = [] := by
  rw [strip_eq_drops, List.dropWhile_eq_nil_iff.mpr h, List.rdropWhile_nil]

lemma strip_cons_ws {c : Char} {t : Str} (h : pyWs c = true) :
    strip (c :: t) = strip t := by
  rw [strip_eq_drops, strip_eq_drops, List.dropWhile_cons, if_pos h]

lemma strip_sublist (s : Str) : (strip s).Sublist s :=
  ((List.rdropWhile_prefix pyWs _).sublist).trans
    ((List.dropWhile_suffix pyWs).sublist)

lemma strip_subset {s : Str} : strip s ⊆ s := (strip_sublist s).subset

lemma lowerChar_toNat_of_upper {c : Char} (h1 : 65 ≤ c.toNat)
    (h2 : c.toNat ≤ 90) : (lowerChar c).toNat = c.toNat + 32 := by
  rw [lowerChar, if_pos ⟨h1, h2⟩]
  obtain ⟨n, hn⟩ : ∃ n, c.toNat + 32 = n := ⟨_, rfl⟩
  rw [hn]
  have h97 : 97 ≤ n := by omega
  have h122 : n ≤ 122 := by omega
  interval_cases n <;> decide

lemma lowerChar_eq_self {c : Char}
    (h : ¬ (65 ≤ c.toNat ∧ c.toNat ≤ 90)) : lowerChar c = c := by
  rw [lowerChar, if_neg h]

lemma lowerChar_idem (c : Char) : lowerChar (lowerChar c) = lowerChar c := by
  by_cases h : 65 ≤ c.toNat ∧ c.toNat ≤ 90
  · have ht := lowerChar_toNat_of_upper h.1 h.2
    exact lowerChar_eq_self (by omega)
  · rw [lowerChar_eq_self h, lowerChar_eq_self h]

lemma lower_lower (s : Str) : lower (lower s) = lower s := by
  have h : lowerChar ∘ lowerChar = lowerChar := funext lowerChar_idem
  show (s.map lowerChar).map lowerChar = s.map lowerChar
  rw [List.map_map, h]

lemma pyWs_false_of_toNat {c : Char} (h : 33 ≤ c.toNat) : pyWs c = false := by
  simp only [pyWs, Bool.or_eq_false_iff, beq_eq_false_iff_ne, ne_eq]
  refine ⟨⟨⟨⟨⟨?_, ?_⟩, ?_⟩, ?_⟩, ?_⟩, ?_⟩ <;>
    · intro e; rw [e] at h; exact absurd h (by decide)

lemma pyWs_lowerChar (c : Char) : pyWs (lowerChar c) = pyWs c := by
  by_cases h : 65 ≤ c.toNat ∧ c.toNat ≤ 90
  · have ht := lowerChar_toNat_of_upper h.1 h.2
    rw [pyWs_false_of_toNat (by omega), pyWs_false_of_toNat (by omega)]
  · rw [lowerChar_eq_self h]

lemma eq_dot_of_lowerChar {c : Char} (h : lowerChar c = '.') : c = '.' := by
  by_cases hu : 65 ≤ c.toNat ∧ c.toNat ≤ 90
  · have ht := lowerChar_toNat_of_upper hu.1 hu.2
    rw [h] at ht
    have h46 : ('.').toNat = 46 := by decide
    omega
  · rwa [lowerChar_eq_self hu] at h

lemma mem_normalize {c : Char} {s : Str} (h : c ∈ normalize s) :
    ∃ d ∈ s, lowerChar d = c := by
  rw [normalize_eq] at h
  have h2 : c ∈ lower (strip s) := by
    by_cases hd : (lower (strip s)).getLast? = some '.'
    · rw [if_pos hd] at h
      exact List.mem_of_mem_dropLast h
    · rwa [if_neg hd] at h
  rw [lower_eq_map] at h2
  obtain ⟨d, hd, hld⟩ := List.mem_map.mp h2
  exact ⟨d, strip_subset hd, hld⟩

lemma dot_not_mem_normalize {s : Str} (h : '.' ∉ s) : '.' ∉ normalize s := by
  intro hc
  obtain ⟨d, hd, hld⟩ := mem_normalize hc
  exact h ((eq_dot_of_lowerChar hld) ▸ hd)

lemma rdropWhile_map (f : Char → Char) (p : Char → Bool) (l : Str) :
    List.rdropWhile p (l.map f) = (List.rdropWhile (p ∘ f) l).map f := by
  unfold List.rdropWhile
  rw [← List.map_reverse, List.dropWhile_map, List.map_reverse]

lemma strip_lower (s : Str) : strip (lower s) = lower (strip s) := by
  have hp : pyWs ∘ lowerChar = pyWs := funext pyWs_lowerChar
  rw [strip_eq_drops, lower_eq_map, List.dropWhile_map,
    rdropWhile_map, hp, lower_eq_map, strip_eq_drops]

lemma lower_normalize (D : Str) : lower (normalize D) = normalize D := by
  rw [normalize_eq]
  by_cases h : (lower (strip D)).getLast? = some '.'
  · rw [if_pos h, lower_eq_map, List.map_dropLast, ← lower_eq_map, lower_lower]
  · rw [if_neg h, lower_lower]

lemma addUnsupported_domains (st : AggState) (v : Str) :
    (addUnsupported st v).domains = st.domains := by
  simp only [addUnsupported]
  split <;> rfl

lemma addUnsupported_seen (st : AggState) (v : Str) :
    (addUnsupported st v).seen = st.seen := by
  simp only [addUnsupported]
  split <;> rfl

lemma validAgg_addDomain {st : AggState} (h : validAgg st) (d : Str) :
    validAgg (addDomain st d) := by
  obtain ⟨hnd, hnil, hseen⟩ := h
  unfold addDomain
  by_cases hcond : d ≠ [] ∧ d ∉ st.seen
  · rw [if_pos hcond]
    have hdnot : d ∉ st.domains := fun hmem => hcond.2 (hseen d hmem)
    refine ⟨?_, ?_, ?_⟩
    · rw [List.nodup_append]
      exact ⟨hnd, List.nodup_singleton d, fun x hx hxd =>
        hdnot ((List.mem_singleton.mp hxd) ▸ hx)⟩
    · simp only [List.mem_append, List.mem_singleton]
      rintro (hm | hm)
      · exact hnil hm
      · exact hcond.1 hm.symm
    · intro x hx
      rcases List.mem_append.mp hx with hx | hx
      · exact List.mem_cons_of_mem _ (hseen x hx)
      · rw [List.mem_singleton.mp hx]
        exact List.mem_cons_self d st.seen
  · rw [if_neg hcond]
    exact ⟨hnd, hnil, hseen⟩

lemma validAgg_addUnsupported {st : AggState} (h : validAgg st) (v : Str) :
    validAgg (addUnsupported st v) := by
  unfold validAgg
  rw [addUnsupported_domains, addUnsupported_seen]
  exact h

lemma validAgg_foldl_addDomain :
    ∀ (l : List Str) (st : AggState), validAgg st →
      validAgg (l.foldl addDomain st)
  | [], _, h => h
  | d :: l, st, h =>
    validAgg_foldl_addDomain l (addDomain st d) (validAgg_addDomain h d)

lemma validAgg_processLine (tlds : List Str) (st : AggState) (raw_line : Str)
    (h : validAgg st) : validAgg (processLine tlds st raw_line) := by
  unfold processLine
  cases parse_line raw_line with
  | none => exact h
  | some kv =>
    obtain ⟨k, v⟩ := kv
    cases k with
    | domain => exact validAgg_addDomain h _
    | keyword => exact validAgg_foldl_addDomain _ _ h
    | unknown => exact validAgg_addUnsupported h _
    | raw => exact validAgg_addUnsupported h _

lemma validAgg_foldl_processLine (tlds : List Str) :
    ∀ (lines : List Str) (st : AggState), validAgg st →
      validAgg (lines.foldl (processLine tlds) st)
  | [], _, h => h
  | l :: ls, st, h =>
    validAgg_foldl_processLine tlds ls _ (validAgg_processLine tlds st l h)

lemma validAgg_foldl_runFile (tlds : List Str) :
    ∀ (files : List (List Str)) (st : AggState), validAgg st →
      validAgg (files.foldl (runFile tlds) st)
  | [], _, h => h
  | f :: fs, st, h =>
    validAgg_foldl_runFile tlds fs _ (validAgg_foldl_processLine tlds f st h)

lemma validAgg_initState : validAgg initState :=
  ⟨List.nodup_nil, List.not_mem_nil _, fun _ hd => absurd hd (List.not_mem_nil _)⟩

lemma validAgg_aggregate (tlds : List Str) (files : List (List Str)) :
    validAgg (aggregate tlds files) :=
  validAgg_foldl_runFile tlds files initState validAgg_initState

lemma addDomain_domains_append (st : AggState) (d : Str) :
    ∃ r, (addDomain st d).domains = st.domains ++ r := by
  unfold addDomain
  split
  · exact ⟨[d], rfl⟩
  · exact ⟨[], (List.append_nil _).symm⟩

lemma foldl_addDomain_domains_append :
    ∀ (l : List Str) (st : AggState),
      ∃ r, (l.foldl addDomain st).domains = st.domains ++ r
  | [], st => ⟨[], (List.append_nil _).symm⟩
  | d :: l, st => by
    obtain ⟨r1, h1⟩ := addDomain_domains_append st d
    obtain ⟨r2, h2⟩ := foldl_addDomain_domains_append l (addDomain st d)
    exact ⟨r1 ++ r2, by rw [List.foldl_cons, h2, h1, List.append_assoc]⟩

lemma processLine_domains_append (tlds : List Str) (st : AggState)
    (raw_line : Str) :
    ∃ r, (processLine tlds st raw_line).domains = st.domains ++ r := by
  unfold processLine
  cases parse_line raw_line with
  | none => exact ⟨[], (List.append_nil _).symm⟩
  | some kv =>
    obtain ⟨k, v⟩ := kv
    cases k with
    | domain => exact addDomain_domains_append st _
    | keyword => exact foldl_addDomain_domains_append _ st
    | unknown => exact ⟨[], by rw [addUnsupported_domains, List.append_nil]⟩
    | raw => exact ⟨[], by rw [addUnsupported_domains, List.append_nil]⟩

lemma foldl_processLine_domains_append (tlds : List Str) :
    ∀ (lines : List Str) (st : AggState),
      ∃ r, (lines.foldl (processLine tlds) st).domains = st.domains ++ r
  | [], st => ⟨[], (List.append_nil _).symm⟩
  | l :: ls, st => by
    obtain ⟨r1, h1⟩ := processLine_domains_append tlds st l
    obtain ⟨r2, h2⟩ := foldl_processLine_domains_append tlds ls (processLine tlds st l)
    exact ⟨r1 ++ r2, by rw [List.foldl_cons, h2, h1, List.append_assoc]⟩

lemma foldl_runFile_domains_append (tlds : List Str) :
    ∀ (files : List (List Str)) (st : AggState),
      ∃ r, (files.foldl (runFile tlds) st).domains = st.domains ++ r
  | [], st => ⟨[], (List.append_nil _).symm⟩
  | f :: fs, st => by
    obtain ⟨r1, h1⟩ := foldl_processLine_domains_append tlds f st
    obtain ⟨r2, h2⟩ := foldl_runFile_domains_append tlds fs (runFile tlds st f)
    refine ⟨r1 ++ r2, ?_⟩
    rw [List.foldl_cons, h2]
    show (runFile tlds st f).domains ++ r2 = st.domains ++ (r1 ++ r2)
    rw [runFile, h1, List.append_assoc]

lemma splitAll_ne_nil : ∀ s : Str, splitAll s ≠ []
  | [] => by simp [splitAll]
  | c :: rest => by
    unfold splitAll
    split
    · simp
    · cases splitAll rest <;> simp

lemma splitAll_tokens_strip_nil :
    ∀ (s : Str), (∀ c ∈ s, pyWs c = true ∨ c = ',') →
      ∀ t ∈ splitAll s, strip t = []
  | [], _, t, ht => by
    simp only [splitAll, List.mem_singleton] at ht
    rw [ht, strip_nil]
  | c :: rest, h, t, ht => by
    have hrest : ∀ d ∈ rest, pyWs d = true ∨ d = ',' :=
      fun d hd => h d (List.mem_cons_of_mem _ hd)
    by_cases hc : c = ','
    · rw [splitAll, if_pos hc] at ht
      rcases List.mem_cons.mp ht with rfl | ht'
      · exact strip_nil
      · exact splitAll_tokens_strip_nil rest hrest t ht'
    · have hws : pyWs c = true :=
        (h c (List.mem_cons_self c rest)).resolve_right hc
      rw [splitAll, if_neg hc] at ht
      cases hsp : splitAll rest with
      | nil => exact absurd hsp (splitAll_ne_nil rest)
      | cons hh tt =>
        rw [hsp] at ht
        rcases List.mem_cons.mp ht with rfl | ht'
        · rw [strip_cons_ws hws]
          exact splitAll_tokens_strip_nil rest hrest hh
            (by rw [hsp]; exact List.mem_cons_self hh tt)
        · exact splitAll_tokens_strip_nil rest hrest t
            (by rw [hsp]; exact List.mem_cons_of_mem _ ht')

lemma parseTlds_all_ws_comma {s : Str}
    (h : ∀ c ∈ s, pyWs c = true ∨ c = ',') : parseTlds s = [] := by
  unfold parseTlds
  rw [List.filterMap_eq_nil_iff]
  intro t ht
  rw [if_pos (splitAll_tokens_strip_nil s h t ht)]

lemma expand_keyword_nil_tlds {K : Str} (h : '.' ∉ normalize K) :
    expand_keyword K [] = [] := by
  unfold expand_keyword
  by_cases he : normalize K = []
  · rw [if_pos he]
  · rw [if_neg he, if_neg h, List.map_nil]

/-! ## Claim theorems -/

/-- C1: for every raw input line, `parse_line` behaves exactly as the
spec describes (`parse_line_claim`): `none` for lines empty after
trimming or starting with `#` or `//`; `domain` with the value portion
when the line has a comma and trimmed marker `DOMAIN` or `DOMAIN-SUFFIX`,
or with the whole trimmed line when there is no comma; `keyword` with the
value portion for `DOMAIN-KEYWORD`; `raw` with the full trimmed line for
any other comma-separated marker; the split is at the first comma only
and both parts are trimmed. -/
theorem parse_line_eq_claim (raw_line : Str) :
    parse_line raw_line = parse_line_claim raw_line := by
  rw [parse_line_def, parse_line_claim_def]
  by_cases h0 : strip raw_line = [] ∨ "#".data.isPrefixOf (strip raw_line) ∨
      "//".data.isPrefixOf (strip raw_line)
  · rw [if_pos h0, if_pos h0]
  · rw [if_neg h0, if_neg h0]
    by_cases hc : ',' ∈ strip raw_line
    · rw [if_pos hc]
      cases hsp : splitFirst (strip raw_line) with
      | none =>
        have hx := splitFirst_eq_some hc
        rw [hsp] at hx
        exact Option.noConfusion hx
      | some pv =>
        obtain ⟨p, v⟩ := pv
        have hx := splitFirst_eq_some hc
        rw [hsp] at hx
        injection hx with hx2
        rw [Prod.mk.injEq] at hx2
        obtain ⟨hp, hv⟩ := hx2
        subst hp
        subst hv
        dsimp only
        by_cases hA : strip (beforeComma (strip raw_line)) = "DOMAIN".data ∨
            strip (beforeComma (strip raw_line)) = "DOMAIN-SUFFIX".data
        · rw [if_pos hA, if_pos hA]
        · rw [if_neg hA, if_neg hA]
          by_cases hB : strip (beforeComma (strip raw_line)) = "DOMAIN-KEYWORD".data
          · rw [if_pos hB, if_pos hB]
          · rw [if_neg hB, if_neg hB]
            have h3 : strip (beforeComma (strip raw_line)) ∉ SUPPORTED_PREFIXES := by
              intro hmem
              simp only [SUPPORTED_PREFIXES, List.mem_cons, List.not_mem_nil,
                or_false] at hmem
              rcases hmem with hm | hm | hm
              · exact hA (Or.inl hm)
              · exact hA (Or.inr hm)
              · exact hB hm
            rw [if_neg h3]
    · rw [if_neg hc]
      cases hsp : splitFirst (strip raw_line) with
      | none => rfl
      | some pv =>
        have hx := splitFirst_eq_none hc
        rw [hsp] at hx
        exact Option.noConfusion hx

/-- C2: on the single input file of Scenario A with TLD list
`["com", "net"]`, the pipeline produces the domains sequence
`example.com, example.org, test.com, test.net` and the unsupported
sequence `domain-match,foo.com`. -/
theorem scenarioA_pipeline :
    (aggregate ["com".data, "net".data]
      [["example.com".data, "DOMAIN-SUFFIX,EXAMPLE.ORG.".data,
        "DOMAIN-KEYWORD,test".data, "DOMAIN-MATCH,foo.com".data,
        "# comment".data]]).domains
      = ["example.com".data, "example.org".data, "test.com".data,
         "test.net".data]
    ∧ (aggregate ["com".data, "net".data]
      [["example.com".data, "DOMAIN-SUFFIX,EXAMPLE.ORG.".data,
        "DOMAIN-KEYWORD,test".data, "DOMAIN-MATCH,foo.com".data,
        "# comment".data]]).unsupported
      = ["domain-match,foo.com".data] := by
  constructor <;> decide

/-- C3: for every TLD list and every sequence of input files, the
aggregated domains sequence has no duplicates and no empty string
(literal and keyword-expanded entries are checked against the same seen
set), and processing further input only appends, so each domain keeps
the position of its first occurrence. -/
theorem aggregate_domains_nodup (tlds : List Str)
    (files more : List (List Str)) :
    (aggregate tlds files).domains.Nodup
    ∧ [] ∉ (aggregate tlds files).domains
    ∧ ∃ r, (aggregate tlds (files ++ more)).domains
        = (aggregate tlds files).domains ++ r := by
  obtain ⟨h1, h2, _⟩ := validAgg_aggregate tlds files
  refine ⟨h1, h2, ?_⟩
  unfold aggregate
  rw [List.foldl_append]
  exact foldl_runFile_domains_append tlds more _

/-- C4 (corrected): `normalize(D)` is the lower-cased, whitespace-trimmed
value of `D` with exactly one trailing dot removed if present; and
`normalize` is idempotent on every `D` whose normalized value is still
whitespace-trimmed and does not end with a dot.  (Unconditional
idempotence is false: removing the single trailing dot can expose a
second dot or trailing whitespace, see `normalize_not_idem`.) -/
theorem normalize_lower_strip_and_idem (D : Str) :
    (normalize D = if (strip (lower D)).getLast? = some '.'
        then (strip (lower D)).dropLast else strip (lower D))
    ∧ (strip (normalize D) = normalize D →
        (normalize D).getLast? ≠ some '.' →
        normalize (normalize D) = normalize D) := by
  constructor
  · rw [strip_lower, normalize_eq]
  · intro h1 h2
    have h3 : lower (strip (normalize D)) = normalize D := by
      rw [h1, lower_normalize]
    rw [normalize_eq (normalize D), h3, if_neg h2]

/-- C4 witness: the conditional idempotence applied to a concrete mixed
case domain with a trailing dot. -/
theorem normalize_idem_witness :
    normalize (normalize "Example.COM.".data) = normalize "Example.COM.".data :=
  (normalize_lower_strip_and_idem "Example.COM.".data).2 (by decide) (by decide)

/-- C4 counterexample: `normalize` is not idempotent on `"a.."`: the
first pass yields `"a."` and the second `"a"`. -/
theorem normalize_not_idem :
    normalize (normalize "a..".data) ≠ normalize "a..".data := by decide

/-- C5 (corrected): for every keyword without a dot WHOSE NORMALIZATION IS
NON-EMPTY, the expansion has one entry per TLD, namely
`normalize(K) ++ "." ++ tld`, in the TLD list's order.  (As literally
stated the claim fails for whitespace-only keywords, which normalize to
the empty string and expand to the empty sequence, see
`expand_keyword_len_cex`.) -/
theorem expand_keyword_no_dot (K : Str) (tlds : List Str)
    (h1 : '.' ∉ K) (h2 : normalize K ≠ []) :
    (expand_keyword K tlds).length = tlds.length
    ∧ expand_keyword K tlds = tlds.map fun tld => normalize K ++ '.' :: tld := by
  have hd : '.' ∉ normalize K := dot_not_mem_normalize h1
  rw [expand_keyword_eq, if_neg h2, if_neg hd]
  exact ⟨by simp, rfl⟩

/-- C5 witness: the dot-free keyword `test` against two TLDs. -/
theorem expand_keyword_no_dot_witness :
    (expand_keyword "test".data ["com".data, "net".data]).length
      = (["com".data, "net".data] : List Str).length :=
  (expand_keyword_no_dot "test".data ["com".data, "net".data]
    (by decide) (by decide)).1

/-- C5 counterexample: the whitespace-only keyword `" "` has no dot, yet
its expansion against one TLD is empty instead of having length one. -/
theorem expand_keyword_len_cex :
    ('.' ∉ ([' '] : Str))
    ∧ (expand_keyword [' '] ["com".data]).length
        ≠ (["com".data] : List Str).length := by
  constructor <;> decide

/-- C6 (corrected): for every keyword WHOSE NORMALIZATION contains a dot,
the expansion is the single-element sequence `[normalize K]`, regardless
of the TLD list.  (As literally stated — a dot in the raw keyword — the
claim fails for `"x."`, whose trailing dot is removed by normalization
before the dot test, see `expand_keyword_dot_cex`.) -/
theorem expand_keyword_dot (K : Str) (tlds : List Str)
    (h : '.' ∈ normalize K) : expand_keyword K tlds = [normalize K] := by
  have hne : normalize K ≠ [] := fun he => by
    rw [he] at h
    exact absurd h (List.not_mem_nil _)
  rw [expand_keyword_eq, if_neg hne, if_pos h]

/-- C6 witness: the already-qualified keyword `a.b`. -/
theorem expand_keyword_dot_witness :
    expand_keyword "a.b".data ["com".data] = [normalize "a.b".data] :=
  expand_keyword_dot "a.b".data ["com".data] (by decide)

/-- C6 counterexample: `"x."` contains a dot, yet its expansion against
`["com"]` is `["x.com"]`, not `[normalize "x."] = ["x"]`. -/
theorem expand_keyword_dot_cex :
    ('.' ∈ "x.".data)
    ∧ expand_keyword "x.".data ["com".data] ≠ [normalize "x.".data] := by
  constructor <;> decide

/-- C7: the entry point exits 2 writing nothing when the input directory
is missing or holds no list files; otherwise the domains file and (unless
suppressed) the unsupported file are always fully written, the exit code
is 1 exactly when strict mode is on and unsupported entries exist, and 0
otherwise. -/
theorem main_exit_codes (cfg : Config) :
    ((cfg.input_dir_exists = false ∨ cfg.list_files = []) → main cfg = (2, []))
    ∧ (cfg.input_dir_exists = true → cfg.list_files ≠ [] →
        ((main cfg).2 =
            (cfg.output_file, writeContent (mainAgg cfg).domains) ::
              (if cfg.unsupported_file = [] then []
               else [(cfg.unsupported_file,
                      writeContent (mainAgg cfg).unsupported)])
          ∧ ((mainAgg cfg).unsupported ≠ [] → cfg.strict = true →
              (main cfg).1 = 1)
          ∧ ((mainAgg cfg).unsupported = [] ∨ cfg.strict = false →
              (main cfg).1 = 0))) := by
  constructor
  · rintro (h | h)
    · rw [main_eq, if_pos h]
    · rw [main_eq]
      by_cases he : cfg.input_dir_exists = false
      · rw [if_pos he]
      · rw [if_neg he, if_pos h]
  · intro hex hne
    have he : ¬ cfg.input_dir_exists = false := by rw [hex]; decide
    have hwrites : ((write_list (some cfg.output_file) (mainAgg cfg).domains).toList ++
        (write_list (if cfg.unsupported_file = [] then none
          else some cfg.unsupported_file) (mainAgg cfg).unsupported).toList) =
        (cfg.output_file, writeContent (mainAgg cfg).domains) ::
          (if cfg.unsupported_file = [] then []
           else [(cfg.unsupported_file, writeContent (mainAgg cfg).unsupported)]) := by
      by_cases hu : cfg.unsupported_file = []
      · rw [if_pos hu, if_pos hu]
        rfl
      · rw [if_neg hu, if_neg hu]
        rfl
    by_cases hs : (mainAgg cfg).unsupported ≠ [] ∧ cfg.strict = true
    · rw [main_eq, if_neg he, if_neg hne, if_pos hs]
      refine ⟨hwrites, fun _ _ => rfl, ?_⟩
      rintro (hu | hu)
      · exact absurd hu hs.1
      · rw [hs.2] at hu
        exact Bool.noConfusion hu
    · rw [main_eq, if_neg he, if_neg hne, if_neg hs]
      refine ⟨hwrites, ?_, fun _ => rfl⟩
      intro h1 h2
      exact absurd ⟨h1, h2⟩ hs

/-- C7 witness: a run over an existing but empty input directory exits 2
with no writes. -/
theorem main_exit_codes_witness :
    main ⟨true, [], "o".data, "u".data, false, "com".data⟩ = (2, []) :=
  (main_exit_codes ⟨true, [], "o".data, "u".data, false, "com".data⟩).1
    (Or.inr rfl)

/-- C8 (corrected): with an unset path the writer writes nothing; with a
set path it writes the newline-join plus exactly one trailing newline
whenever the JOINED CONTENT is non-empty, and a zero-byte file when the
sequence is empty — or when it is the single empty string, the one
non-empty sequence whose join is empty.  (As literally stated the claim
fails on `[""]`, see `write_list_cex`.) -/
theorem write_list_spec (p : Str) (items : List Str) :
    write_list none items = none
    ∧ (List.intercalate "\n".data items ≠ [] →
        write_list (some p) items
          = some (p, List.intercalate "\n".data items ++ "\n".data))
    ∧ (items = [] ∨ items = [[]] → write_list (some p) items = some (p, [])) := by
  refine ⟨rfl, ?_, ?_⟩
  · intro h
    show some (p, writeContent items) = _
    rw [writeContent_eq, if_neg h]
  · rintro (rfl | rfl)
    · rfl
    · rfl

/-- C8 witness: a one-element sequence is written newline-terminated. -/
theorem write_list_spec_witness :
    write_list (some "o".data) ["a".data]
      = some ("o".data, List.intercalate "\n".data ["a".data] ++ "\n".data) :=
  (write_list_spec "o".data ["a".data]).2.1 (by decide)

/-- C8 counterexample: the non-empty sequence `[""]` is written as a
zero-byte file, not as a single newline. -/
theorem write_list_cex :
    write_list (some "o".data) [([] : Str)] ≠ some ("o".data, "\n".data)
    ∧ ([([] : Str)] : List Str) ≠ [] := by
  constructor <;> decide

/-- C9: classification is case-sensitive — a comma-separated line whose
trimmed marker is a letter-case variant of DOMAIN, DOMAIN-SUFFIX or
DOMAIN-KEYWORD but not exactly equal to one of them is classified `raw`,
so it contributes nothing to the domains sequence and is recorded (as the
normalized full line) in the unsupported sequence. -/
theorem classifier_case_sensitive (raw_line : Str)
    (h0 : ¬ (strip raw_line = [] ∨ "#".data.isPrefixOf (strip raw_line) ∨
        "//".data.isPrefixOf (strip raw_line)))
    (h1 : ',' ∈ strip raw_line)
    (h2 : lower (strip (beforeComma (strip raw_line))) = "domain".data ∨
        lower (strip (beforeComma (strip raw_line))) = "domain-suffix".data ∨
        lower (strip (beforeComma (strip raw_line))) = "domain-keyword".data)
    (h3 : strip (beforeComma (strip raw_line)) ∉ SUPPORTED_PREFIXES) :
    parse_line raw_line = some (Kind.raw, strip raw_line)
    ∧ (∀ tlds st, processLine tlds st raw_line = addUnsupported st (strip raw_line))
    ∧ (∀ tlds st, (processLine tlds st raw_line).domains = st.domains) := by
  have hA : ¬ (strip (beforeComma (strip raw_line)) = "DOMAIN".data ∨
      strip (beforeComma (strip raw_line)) = "DOMAIN-SUFFIX".data) := by
    rintro (hm | hm)
    · apply h3; rw [hm]; decide
    · apply h3; rw [hm]; decide
  have hB : ¬ strip (beforeComma (strip raw_line)) = "DOMAIN-KEYWORD".data := by
    intro hm
    apply h3; rw [hm]; decide
  have hmain : parse_line raw_line = some (Kind.raw, strip raw_line) := by
    rw [parse_line_def, if_neg h0]
    cases hsp : splitFirst (strip raw_line) with
    | none =>
      have hx := splitFirst_eq_some h1
      rw [hsp] at hx
      exact Option.noConfusion hx
    | some pv =>
      obtain ⟨p, v⟩ := pv
      have hx := splitFirst_eq_some h1
      rw [hsp] at hx
      injection hx with hx2
      rw [Prod.mk.injEq] at hx2
      obtain ⟨hp, hv⟩ := hx2
      subst hp
      subst hv
      dsimp only
      rw [if_neg hA, if_neg hB, if_neg h3]
  refine ⟨hmain, ?_, ?_⟩
  · intro tlds st
    unfold processLine
    rw [hmain]
  · intro tlds st
    unfold processLine
    rw [hmain]
    exact addUnsupported_domains st _

/-- C9 witness: the lower-case marker line `domain,example.com` is
classified `raw`. -/
theorem classifier_case_sensitive_witness :
    parse_line "domain,example.com".data
      = some (Kind.raw, strip "domain,example.com".data) :=
  (classifier_case_sensitive "domain,example.com".data
    (by decide) (by decide) (by decide) (by decide)).1

/-- C10: a keyword-TLD string consisting only of commas and whitespace
parses to the empty TLD list; with an empty TLD list every keyword whose
normalization has no dot expands to nothing; hence such a DOMAIN-KEYWORD
line leaves the aggregator state unchanged — no domains, and nothing
recorded as unsupported. -/
theorem keyword_empty_tlds :
    (∀ s : Str, (∀ c ∈ s, pyWs c = true ∨ c = ',') → parseTlds s = [])
    ∧ (∀ K : Str, '.' ∉ normalize K → expand_keyword K [] = [])
    ∧ (∀ (st : AggState) (raw_line value : Str),
        parse_line raw_line = some (Kind.keyword, value) →
        '.' ∉ normalize value → processLine [] st raw_line = st) := by
  refine ⟨fun s h => parseTlds_all_ws_comma h,
    fun K h => expand_keyword_nil_tlds h, ?_⟩
  intro st raw_line value hp hdot
  unfold processLine
  rw [hp]
  show (expand_keyword value []).foldl addDomain st = st
  rw [expand_keyword_nil_tlds hdot]
  rfl

/-- C10 witness: a commas-and-spaces TLD option, the keyword `test`, and
a full DOMAIN-KEYWORD line, all at the empty TLD list. -/
theorem keyword_empty_tlds_witness :
    parseTlds " ,,".data = []
    ∧ expand_keyword "test".data [] = []
    ∧ processLine [] initState "DOMAIN-KEYWORD,test".data = initState :=
  ⟨keyword_empty_tlds.1 " ,,".data (by decide),
   keyword_empty_tlds.2.1 "test".data (by decide),
   keyword_empty_tlds.2.2 initState "DOMAIN-KEYWORD,test".data "test".data
     (by decide) (by decide)⟩

end SrConfig
